import Mathlib

/-!
Verification of the aws-resource-watcher reconciliation engine.

The Go sources are shallowly embedded over `GoStr := List Char`:
- `internal/watcher/watcher.go`: `matchesARNPattern`, `matchesResourcePattern`,
  `filterARNs`, `compareResources`, `getAllResourceARNs`, `checkResources`;
- `internal/aws/client.go`: the pagination loop of `Client.GetResourceARNs`;
- `internal/storage/redis.go`: the Redis-list backed state store.
-/

set_option maxRecDepth 10000

/-- A Go string, modelled as its list of characters. -/
abbrev GoStr := List Char

/-- Models Go `strings.Split(s, sep)` for a one-character separator `sep`:
splits `s` at every occurrence of `sep`; the result always has at least one
(possibly empty) field. -/
def goSplit (sep : Char) : GoStr → List GoStr
  | [] => [[]]
  | c :: rest =>
    if c = sep then [] :: goSplit sep rest
    else
      match goSplit sep rest with
      | [] => [[c]]
      | f :: fs => (c :: f) :: fs

/-- Models Go `strings.Join(fields, sep)` for a one-character separator. -/
def goJoin (sep : Char) : List GoStr → GoStr
  | [] => []
  | [f] => f
  | f :: rest => f ++ sep :: goJoin sep rest

/-- Models Go `strings.HasPrefix(s, p)`. -/
def goStartsWith : GoStr → GoStr → Bool
  | _, [] => true
  | [], _ :: _ => false
  | a :: as, b :: bs => a = b && goStartsWith as bs

/-- Models Go `strings.HasSuffix(s, p)`. -/
def goEndsWith (s p : GoStr) : Bool :=
  goStartsWith s.reverse p.reverse

/-- Models Go `strings.TrimSuffix(s, p)`: drops `p` from the end of `s` when it
is a suffix, otherwise returns `s` unchanged. -/
def goTrimSuffix (s p : GoStr) : GoStr :=
  if goEndsWith s p then s.take (s.length - p.length) else s

/-- Go `sort.Strings` compares strings bytewise; on the characters appearing in
ARNs this is lexicographic comparison of the character lists. -/
def goStrLe : GoStr → GoStr → Bool
  | [], _ => true
  | _ :: _, [] => false
  | a :: as, b :: bs => if a = b then goStrLe as bs else decide (a < b)

/-- The ordering used by the model of `sort.Strings`, as a proposition. -/
def strLe (a b : GoStr) : Prop := goStrLe a b = true

instance : DecidableRel strLe := fun a b => instDecidableEqBool (goStrLe a b) true

/-- watcher.go `compareResources`: `added` is every element of `current` that is
not a member of `previous` (in the order of `current`), `removed` is every
element of `previous` not a member of `current` (in the order of `previous`).
The Go membership maps built from the two slices are modelled by `List.contains`. -/
def compareResources (previous current : List GoStr) : List GoStr × List GoStr :=
  (current.filter (fun arn => !(previous.contains arn)),
   previous.filter (fun arn => !(current.contains arn)))

/-- watcher.go `matchesResourcePattern`: handles the resource part of an ARN.
A pattern ending in `/*` (resp. `:*`) matches any resource whose field starts
with the trimmed type followed by `/` or `:`; a bare `*` matches anything;
otherwise an exact match is required. -/
def matchesResourcePattern (arnResource patternResource : GoStr) : Bool :=
  if goEndsWith patternResource ['/', '*'] then
    let resourceType := goTrimSuffix patternResource ['/', '*']
    goStartsWith arnResource (resourceType ++ ['/']) ||
      goStartsWith arnResource (resourceType ++ [':'])
  else if goEndsWith patternResource [':', '*'] then
    let resourceType := goTrimSuffix patternResource [':', '*']
    goStartsWith arnResource (resourceType ++ [':']) ||
      goStartsWith arnResource (resourceType ++ ['/'])
  else if patternResource == ['*'] then true
  else arnResource == patternResource

/-- One iteration of the field loop of watcher.go `matchesARNPattern` for the
fields at indices 0..4: an empty pattern field or `*` matches any value,
otherwise the fields must be equal. -/
def matchesARNField (arnField patternField : GoStr) : Bool :=
  patternField == [] || patternField == ['*'] || arnField == patternField

/-- The body of watcher.go `matchesARNPattern` acting on the split fields, with
the `for i := 0; i < 6` loop unrolled.  Fewer than 6 fields on either side is
rejected; fields 0..4 use `matchesARNField`; at field 5 an empty or `*` pattern
field is accepted by the loop's `continue`, and any other pattern field is
delegated to `matchesResourcePattern`. -/
def matchesARNPatternParts (arnParts patternParts : List GoStr) : Bool :=
  if arnParts.length < 6 ∨ patternParts.length < 6 then false
  else
    matchesARNField (arnParts.getD 0 []) (patternParts.getD 0 []) &&
    matchesARNField (arnParts.getD 1 []) (patternParts.getD 1 []) &&
    matchesARNField (arnParts.getD 2 []) (patternParts.getD 2 []) &&
    matchesARNField (arnParts.getD 3 []) (patternParts.getD 3 []) &&
    matchesARNField (arnParts.getD 4 []) (patternParts.getD 4 []) &&
    (let p5 := patternParts.getD 5 []
     if p5 == [] || p5 == ['*'] then true
     else matchesResourcePattern (arnParts.getD 5 []) p5)

/-- watcher.go `matchesARNPattern`: splits the ARN and the pattern on `:` and
applies the field loop. -/
def matchesARNPattern (arn pattern : GoStr) : Bool :=
  matchesARNPatternParts (goSplit ':' arn) (goSplit ':' pattern)

/-- watcher.go `filterARNs`: with no configured patterns the input is returned
unchanged; otherwise every ARN matching at least one ignore pattern is dropped. -/
def filterARNs (patterns arns : List GoStr) : List GoStr :=
  if patterns = [] then arns
  else arns.filter (fun arn => !(patterns.any (fun p => matchesARNPattern arn p)))

/-- Written from the spec's words (§4.2, field 5, quoted by claim C3): "if the
pattern's resource field ends in `/*` or `:*`, strip the suffix and require the
identifier's resource field to start with `type/` or `type:`; a bare `*`
matches anything; otherwise requires an exact string match." -/
def specResourceSubMatch (idRes patRes : GoStr) : Bool :=
  if goEndsWith patRes ['/', '*'] || goEndsWith patRes [':', '*'] then
    let t := patRes.take (patRes.length - 2)
    goStartsWith idRes (t ++ ['/']) || goStartsWith idRes (t ++ [':'])
  else if patRes == ['*'] then true
  else idRes == patRes

/-- The Filter contract exactly as claim C3 states it: fewer than 6
colon-delimited fields on either side returns false; fields 0..4 require an
exact match unless the pattern field is empty or `*`; the resource field is
always judged by the specified sub-match (`specResourceSubMatch`). -/
def specClaimMatches (arn pattern : GoStr) : Bool :=
  let ap := goSplit ':' arn
  let pp := goSplit ':' pattern
  if ap.length < 6 ∨ pp.length < 6 then false
  else
    matchesARNField (ap.getD 0 []) (pp.getD 0 []) &&
    matchesARNField (ap.getD 1 []) (pp.getD 1 []) &&
    matchesARNField (ap.getD 2 []) (pp.getD 2 []) &&
    matchesARNField (ap.getD 3 []) (pp.getD 3 []) &&
    matchesARNField (ap.getD 4 []) (pp.getD 4 []) &&
    specResourceSubMatch (ap.getD 5 []) (pp.getD 5 [])

/-- Claim C3 as amended: same as `specClaimMatches` except that an empty
pattern resource field (like `*`) matches any resource field — the empty-field
wildcard rule of the field walk applies to field 5 as well. -/
def specAmendedMatches (arn pattern : GoStr) : Bool :=
  let ap := goSplit ':' arn
  let pp := goSplit ':' pattern
  if ap.length < 6 ∨ pp.length < 6 then false
  else
    matchesARNField (ap.getD 0 []) (pp.getD 0 []) &&
    matchesARNField (ap.getD 1 []) (pp.getD 1 []) &&
    matchesARNField (ap.getD 2 []) (pp.getD 2 []) &&
    matchesARNField (ap.getD 3 []) (pp.getD 3 []) &&
    matchesARNField (ap.getD 4 []) (pp.getD 4 []) &&
    (let p5 := pp.getD 5 []
     if p5 == [] || p5 == ['*'] then true
     else specResourceSubMatch (ap.getD 5 []) p5)

lemma matchesResourcePattern_eq_spec (a p : GoStr) :
    matchesResourcePattern a p = specResourceSubMatch a p := by
  unfold matchesResourcePattern specResourceSubMatch goTrimSuffix
  by_cases h1 : goEndsWith p ['/', '*'] = true <;>
    by_cases h2 : goEndsWith p [':', '*'] = true <;>
      simp [h1, h2]
  exact Bool.or_comm _ _

lemma goSplit_ne_nil (sep : Char) (s : GoStr) : goSplit sep s ≠ [] := by
  induction s with
  | nil => simp [goSplit]
  | cons c rest ih =>
    simp only [goSplit]
    split
    · simp
    · cases h : goSplit sep rest with
      | nil => simp
      | cons f fs => simp [h]

lemma mem_goSplit_not_mem (sep : Char) :
    ∀ (s f : GoStr), f ∈ goSplit sep s → sep ∉ f := by
  intro s
  induction s with
  | nil =>
    intro f hf
    simp [goSplit] at hf
    simp [hf]
  | cons c rest ih =>
    intro f hf
    simp only [goSplit] at hf
    by_cases hc : c = sep
    · rw [if_pos hc] at hf
      rcases List.mem_cons.mp hf with h | h
      · simp [h]
      · exact ih f h
    · rw [if_neg hc] at hf
      cases h : goSplit sep rest with
      | nil => exact absurd h (goSplit_ne_nil sep rest)
      | cons g gs =>
        rw [h] at hf
        rcases List.mem_cons.mp hf with h1 | h1
        · subst h1
          intro hmem
          rcases List.mem_cons.mp hmem with h2 | h2
          · exact hc h2.symm
          · exact ih g (h ▸ List.mem_cons_self g gs) h2
        · exact ih f (h ▸ List.mem_cons_of_mem g h1)

lemma goSplit_no_sep (sep : Char) :
    ∀ (s : GoStr), sep ∉ s → goSplit sep s = [s] := by
  intro s
  induction s with
  | nil => intro _; rfl
  | cons c rest ih =>
    intro h
    have hc : ¬(c = sep) := fun e => h (e ▸ List.mem_cons_self c rest)
    have hr : sep ∉ rest := fun e => h (List.mem_cons_of_mem c e)
    simp only [goSplit, if_neg hc, ih hr]

lemma goSplit_append (sep : Char) :
    ∀ (x r : GoStr), sep ∉ x → goSplit sep (x ++ sep :: r) = x :: goSplit sep r := by
  intro x
  induction x with
  | nil =>
    intro r _
    simp [goSplit]
  | cons c cs ih =>
    intro r h
    have hc : ¬(c = sep) := fun e => h (e ▸ List.mem_cons_self c cs)
    have hr : sep ∉ cs := fun e => h (List.mem_cons_of_mem c e)
    simp only [List.cons_append, goSplit, if_neg hc, List.append_eq, ih r hr]

lemma goSplit_goJoin (sep : Char) :
    ∀ (l : List GoStr), l ≠ [] → (∀ f ∈ l, sep ∉ f) →
      goSplit sep (goJoin sep l) = l := by
  intro l
  induction l with
  | nil => intro h; exact absurd rfl h
  | cons f rest ih =>
    intro _ hmem
    cases rest with
    | nil => exact goSplit_no_sep sep f (hmem f (List.mem_cons_self f []))
    | cons g gs =>
      have hjoin : goJoin sep (f :: g :: gs) = f ++ sep :: goJoin sep (g :: gs) := rfl
      rw [hjoin, goSplit_append sep f _ (hmem f (List.mem_cons_self f (g :: gs)))]
      rw [ih (by simp) (fun x hx => hmem x (List.mem_cons_of_mem f hx))]

lemma getD_take_of_lt {α : Type} (l : List α) (d : α) :
    ∀ (n i : Nat), i < n → (l.take n).getD i d = l.getD i d := by
  induction l with
  | nil => intro n i _; simp
  | cons a as ih =>
    intro n i h
    cases n with
    | zero => omega
    | succ m =>
      cases i with
      | zero => rfl
      | succ j =>
        simp only [List.take_succ_cons, List.getD_cons_succ]
        exact ih m j (by omega)

lemma matchesARNPatternParts_take (ap pp : List GoStr)
    (ha : 6 ≤ ap.length) (hp : 6 ≤ pp.length) :
    matchesARNPatternParts (ap.take 6) (pp.take 6) = matchesARNPatternParts ap pp := by
  have la : (ap.take 6).length = 6 := by
    rw [List.length_take]; omega
  have lp : (pp.take 6).length = 6 := by
    rw [List.length_take]; omega
  have h1 : ¬((ap.take 6).length < 6 ∨ (pp.take 6).length < 6) := by
    rw [la, lp]; omega
  have h2 : ¬(ap.length < 6 ∨ pp.length < 6) := by omega
  unfold matchesARNPatternParts
  rw [if_neg h1, if_neg h2]
  rw [getD_take_of_lt ap [] 6 0 (by omega), getD_take_of_lt ap [] 6 1 (by omega),
    getD_take_of_lt ap [] 6 2 (by omega), getD_take_of_lt ap [] 6 3 (by omega),
    getD_take_of_lt ap [] 6 4 (by omega), getD_take_of_lt ap [] 6 5 (by omega),
    getD_take_of_lt pp [] 6 0 (by omega), getD_take_of_lt pp [] 6 1 (by omega),
    getD_take_of_lt pp [] 6 2 (by omega), getD_take_of_lt pp [] 6 3 (by omega),
    getD_take_of_lt pp [] 6 4 (by omega), getD_take_of_lt pp [] 6 5 (by omega)]

/-- One response of the ResourceGroupsTaggingAPI `GetResources` call:
the `ResourceTagMappingList` (each entry's `ResourceARN`, which may be nil)
and the `PaginationToken` (nil terminates pagination). -/
structure GetResourcesPage where
  resourceARNs : List (Option GoStr)
  paginationToken : Option GoStr
deriving DecidableEq

/-- Result of one partition enumeration (client.go `GetResourceARNs`): the
accumulated unique ARNs in first-seen order, the total duplicate count (only
logged by the Go code), and the number of `GetResources` requests issued. -/
structure EnumResult where
  arns : List GoStr
  duplicateCount : Nat
  requests : Nat
deriving DecidableEq

/-- client.go line 265: `maxRequests := 50`. -/
def maxRequests : Nat := 50

/-- client.go line 267: `maxEmptyResponses := 1` (the adjacent comment speaks
of 3, but the assigned value is 1). -/
def maxEmptyResponses : Nat := 1

/-- The inner `for _, resource := range result.ResourceTagMappingList` loop of
client.go `GetResourceARNs`: skips nil ARNs, counts duplicates, and appends
previously unseen ARNs to both the membership set and the result.  Returns
(seen, allARNs, newARNsInBatch, duplicatesInBatch). -/
def processBatch : List (Option GoStr) → List GoStr → List GoStr → Nat → Nat →
    List GoStr × List GoStr × Nat × Nat
  | [], seen, allARNs, newInBatch, dupsInBatch => (seen, allARNs, newInBatch, dupsInBatch)
  | none :: rest, seen, allARNs, n, d => processBatch rest seen allARNs n d
  | some arn :: rest, seen, allARNs, n, d =>
    if seen.contains arn then processBatch rest seen allARNs n (d + 1)
    else processBatch rest (arn :: seen) (allARNs ++ [arn]) (n + 1) d

/-- The pagination loop of client.go `GetResourceARNs`.  The listing API is a
collaborator `api` mapping the request number (1-based, as counted by the Go
variable `requestCount`) to a page or an error.  The Go loop increments
`requestCount` and breaks when `requestCount > maxRequests`; here `fuel`
counts the remaining allowed requests (`fuel = maxRequests - requests`), so
`fuel = 0` is exactly that break.  The other exits mirror the source in order:
an API error is returned; a page with zero resources that brings the
consecutive-empty counter to `maxEmptyResponses` breaks; a non-empty page with
zero new ARNs breaks; a nil pagination token breaks. -/
def enumLoop (api : Nat → Except String GetResourcesPage) :
    Nat → Nat → Nat → List GoStr → List GoStr → Nat → Except String EnumResult
  | 0, requests, _, _, allARNs, dups => Except.ok ⟨allARNs, dups, requests⟩
  | fuel + 1, requests, consecutiveEmpty, seen, allARNs, dups =>
    match api (requests + 1) with
    | Except.error e => Except.error e
    | Except.ok page =>
      let resourceCount := page.resourceARNs.length
      if resourceCount = 0 ∧ maxEmptyResponses ≤ consecutiveEmpty + 1 then
        Except.ok ⟨allARNs, dups, requests + 1⟩
      else
        let consecutiveEmpty' := if resourceCount = 0 then consecutiveEmpty + 1 else 0
        let r := processBatch page.resourceARNs seen allARNs 0 0
        if 0 < resourceCount ∧ r.2.2.1 = 0 then
          Except.ok ⟨r.2.1, dups + r.2.2.2, requests + 1⟩
        else
          match page.paginationToken with
          | none => Except.ok ⟨r.2.1, dups + r.2.2.2, requests + 1⟩
          | some _ => enumLoop api fuel (requests + 1) consecutiveEmpty' r.1 r.2.1 (dups + r.2.2.2)

/-- client.go `GetResourceARNs` for one region: runs the pagination loop with
empty initial state and the 50-request ceiling. -/
def GetResourceARNs (api : Nat → Except String GetResourcesPage) :
    Except String EnumResult :=
  enumLoop api maxRequests 0 0 [] [] 0

lemma processBatch_nodup :
    ∀ (rs : List (Option GoStr)) (seen allARNs : List GoStr) (n d : Nat),
      allARNs.Nodup → (∀ a ∈ allARNs, a ∈ seen) →
      (processBatch rs seen allARNs n d).2.1.Nodup ∧
        ∀ a ∈ (processBatch rs seen allARNs n d).2.1,
          a ∈ (processBatch rs seen allARNs n d).1 := by
  intro rs
  induction rs with
  | nil => intro seen allARNs n d h1 h2; exact ⟨h1, h2⟩
  | cons o rest ih =>
    intro seen allARNs n d h1 h2
    cases o with
    | none => exact ih seen allARNs n d h1 h2
    | some arn =>
      by_cases hc : seen.contains arn = true
      · simpa only [processBatch, if_pos hc] using ih seen allARNs n (d + 1) h1 h2
      · have harn : arn ∉ allARNs := fun hmem => hc (by simpa using h2 arn hmem)
        simp only [processBatch, if_neg hc]
        apply ih
        · simp [List.nodup_append, h1, harn]
        · intro a ha
          rcases List.mem_append.mp ha with h | h
          · exact List.mem_cons_of_mem arn (h2 a h)
          · simp at h
            simp [h]

lemma enumLoop_nodup (api : Nat → Except String GetResourcesPage) :
    ∀ (fuel requests consecutiveEmpty : Nat) (seen allARNs : List GoStr) (dups : Nat),
      allARNs.Nodup → (∀ a ∈ allARNs, a ∈ seen) →
      ∀ r, enumLoop api fuel requests consecutiveEmpty seen allARNs dups = Except.ok r →
        r.arns.Nodup := by
  intro fuel
  induction fuel with
  | zero =>
    intro requests consecutiveEmpty seen allARNs dups h1 _ r hr
    simp only [enumLoop] at hr
    cases hr
    exact h1
  | succ fuel ih =>
    intro requests consecutiveEmpty seen allARNs dups h1 h2 r hr
    simp only [enumLoop] at hr
    cases hapi : api (requests + 1) with
    | error e => rw [hapi] at hr; cases hr
    | ok page =>
      rw [hapi] at hr
      simp only at hr
      have hpb := processBatch_nodup page.resourceARNs seen allARNs 0 0 h1 h2
      split at hr
      · cases hr; exact h1
      · split at hr
        · cases hr; exact hpb.1
        · cases htok : page.paginationToken with
          | none => rw [htok] at hr; cases hr; exact hpb.1
          | some t =>
            rw [htok] at hr
            exact ih _ _ _ _ _ hpb.1 hpb.2 r hr

lemma enumLoop_ok (api : Nat → Except String GetResourcesPage)
    (hok : ∀ k, ∃ page, api k = Except.ok page) :
    ∀ (fuel requests consecutiveEmpty : Nat) (seen allARNs : List GoStr) (dups : Nat),
      ∃ r, enumLoop api fuel requests consecutiveEmpty seen allARNs dups = Except.ok r := by
  intro fuel
  induction fuel with
  | zero => intro requests consecutiveEmpty seen allARNs dups; exact ⟨_, rfl⟩
  | succ fuel ih =>
    intro requests consecutiveEmpty seen allARNs dups
    obtain ⟨page, hpage⟩ := hok (requests + 1)
    simp only [enumLoop, hpage]
    split
    · exact ⟨_, rfl⟩
    · split
      · exact ⟨_, rfl⟩
      · cases htok : page.paginationToken with
        | none => exact ⟨_, rfl⟩
        | some t => exact ih _ _ _ _ _

lemma enumLoop_empty_break (api : Nat → Except String GetResourcesPage)
    (fuel requests consecutiveEmpty : Nat) (seen allARNs : List GoStr)
    (dups : Nat) (t : GoStr)
    (hapi : api (requests + 1) = Except.ok ⟨[], some t⟩)
    (hce : maxEmptyResponses ≤ consecutiveEmpty + 1) :
    enumLoop api (fuel + 1) requests consecutiveEmpty seen allARNs dups =
      Except.ok ⟨allARNs, dups, requests + 1⟩ := by
  simp only [enumLoop, hapi]
  simp [hce]

/-- An identifier and pagination token used by the mock listing APIs below. -/
def sameArn : GoStr := "arn:aws:s3:::bkt".toList

def someToken : GoStr := "t".toList

/-- Mock API returning the same single ARN on three consecutive pages, always
with a continuation token, then empty terminal pages; it never errors. -/
def threeDupApi : Nat → Except String GetResourcesPage := fun k =>
  Except.ok (if k ≤ 3 then ⟨[some sameArn], some someToken⟩ else ⟨[], none⟩)

/-- Mock API returning only empty pages, always with a continuation token. -/
def emptyPagesApi : Nat → Except String GetResourcesPage := fun _ =>
  Except.ok ⟨[], some someToken⟩

/-- Claim C6: enumeration deduplicates.  Whenever `GetResourceARNs` succeeds,
the returned set contains every identifier at most once, and an error-free
listing API never makes it fail (duplicates are counted, not errors).  In
particular, for the mock returning one identifier on three consecutive pages,
the result holds that identifier exactly once with `duplicateCount = 1` (the
all-duplicate second page is a terminal signal, so only 2 requests happen). -/
theorem enumeration_dedup (api : Nat → Except String GetResourcesPage)
    (hok : ∀ k, ∃ page, api k = Except.ok page) :
    (∃ r, GetResourceARNs api = Except.ok r ∧ r.arns.Nodup) ∧
      GetResourceARNs threeDupApi = Except.ok ⟨[sameArn], 1, 2⟩ ∧
      [sameArn].count sameArn = 1 := by
  refine ⟨?_, by rfl, by simp⟩
  obtain ⟨r, hr⟩ := enumLoop_ok api hok maxRequests 0 0 [] [] 0
  exact ⟨r, hr, enumLoop_nodup api maxRequests 0 0 [] [] 0 List.nodup_nil
    (by simp) r hr⟩

theorem enumeration_dedup_witness :
    (∃ r, GetResourceARNs threeDupApi = Except.ok r ∧ r.arns.Nodup) ∧
      GetResourceARNs threeDupApi = Except.ok ⟨[sameArn], 1, 2⟩ ∧
      [sameArn].count sameArn = 1 :=
  enumeration_dedup threeDupApi (fun _ => ⟨_, rfl⟩)

/-- Claim C5: for a listing API whose every page carries zero identifiers but a
non-nil continuation token, enumeration of one partition terminates
successfully within the consecutive-empty-response ceiling
(`maxEmptyResponses = 1`) of page requests, strictly before the fixed
50-request ceiling. -/
theorem enumeration_empty_page_ceiling (api : Nat → Except String GetResourcesPage)
    (h : ∀ k, ∃ t, api k = Except.ok ⟨[], some t⟩) :
    ∃ r, GetResourceARNs api = Except.ok r ∧
      r.requests ≤ maxEmptyResponses ∧ r.requests < maxRequests := by
  obtain ⟨t, ht⟩ := h 1
  exact ⟨⟨[], 0, 1⟩, enumLoop_empty_break api 49 0 0 [] [] 0 t ht (by decide),
    by decide, by decide⟩

theorem enumeration_empty_page_ceiling_witness :
    ∃ r, GetResourceARNs emptyPagesApi = Except.ok r ∧
      r.requests ≤ maxEmptyResponses ∧ r.requests < maxRequests :=
  enumeration_empty_page_ceiling emptyPagesApi (fun _ => ⟨someToken, rfl⟩)

lemma goStrLe_total : ∀ a b : GoStr, goStrLe a b = true ∨ goStrLe b a = true := by
  intro a
  induction a with
  | nil => intro b; exact Or.inl rfl
  | cons x xs ih =>
    intro b
    cases b with
    | nil => exact Or.inr rfl
    | cons y ys =>
      by_cases hxy : x = y
      · subst hxy
        rcases ih ys with h | h
        · exact Or.inl (by simp [goStrLe, h])
        · exact Or.inr (by simp [goStrLe, h])
      · rcases lt_or_gt_of_ne hxy with h | h
        · exact Or.inl (by simp [goStrLe, if_neg hxy, h])
        · exact Or.inr (by simp [goStrLe, if_neg (Ne.symm hxy), h])

lemma goStrLe_trans :
    ∀ a b c : GoStr, goStrLe a b = true → goStrLe b c = true → goStrLe a c = true := by
  intro a
  induction a with
  | nil => intro b c _ _; rfl
  | cons x xs ih =>
    intro b c hab hbc
    cases b with
    | nil => simp [goStrLe] at hab
    | cons y ys =>
      cases c with
      | nil => simp [goStrLe] at hbc
      | cons z zs =>
        simp only [goStrLe] at hab hbc ⊢
        by_cases hxy : x = y
        · subst hxy
          rw [if_pos rfl] at hab
          by_cases hyz : x = z
          · subst hyz
            rw [if_pos rfl] at hbc
            rw [if_pos rfl]
            exact ih ys zs hab hbc
          · rw [if_neg hyz] at hbc ⊢
            exact hbc
        · rw [if_neg hxy] at hab
          have hxy' : x < y := of_decide_eq_true hab
          by_cases hyz : y = z
          · subst hyz
            rw [if_neg hxy]
            exact hab
          · rw [if_neg hyz] at hbc
            have hyz' : y < z := of_decide_eq_true hbc
            have hxz : x < z := lt_trans hxy' hyz'
            rw [if_neg (ne_of_lt hxz)]
            exact decide_eq_true hxz

instance : IsTotal GoStr strLe := ⟨goStrLe_total⟩

instance : IsTrans GoStr strLe := ⟨goStrLe_trans⟩

/-- Models Go `sort.Strings`: sorts ascending in the bytewise string order
(watcher.go line 248 sorts the merged ARNs "for consistent comparison"). -/
def sortStrings (l : List GoStr) : List GoStr := List.insertionSort strLe l

/-- The per-account contents of the Redis state store: `none` when the key
`aws:resources:<account>` is absent, otherwise the stored Redis list, head
first. -/
abbrev StoreState := Option (List GoStr)

/-- redis.go `SetResourceARNs` combined with standard Redis list command
semantics: `DEL` removes the key, then — only when `arns` is non-empty —
`LPUSH key v1 … vn` inserts each value at the head in argument order, so the
resulting list is the reverse of `arns`.  Persisting an empty set therefore
leaves the key absent. -/
def SetResourceARNs (arns : List GoStr) : StoreState :=
  if arns = [] then none else some arns.reverse

/-- redis.go `GetResourceARNs`: `LRANGE key 0 -1` returns the stored list
head-first; an absent key yields the empty slice. -/
def GetStoredARNs (st : StoreState) : List GoStr := st.getD []

/-- redis.go `IsFirstRun`: true iff the account's key does not exist. -/
def IsFirstRun (st : StoreState) : Bool := st.isNone

/-- The region loop of watcher.go `getAllResourceARNs`: `getRegion` stands for
the per-region enumeration collaborator `awsClient.GetResourceARNs`; a region
whose enumeration errors is logged and skipped (`continue`), a successful
region contributes its filtered ARNs in order. -/
def mergeRegionARNs (getRegion : GoStr → Except String (List GoStr))
    (patterns : List GoStr) : List GoStr → List GoStr
  | [] => []
  | region :: rest =>
    match getRegion region with
    | Except.error _ => mergeRegionARNs getRegion patterns rest
    | Except.ok arns => filterARNs patterns arns ++ mergeRegionARNs getRegion patterns rest

/-- The merged, filtered, sorted current set of one cycle. -/
def currentSet (getRegion : GoStr → Except String (List GoStr))
    (patterns regions : List GoStr) : List GoStr :=
  sortStrings (mergeRegionARNs getRegion patterns regions)

/-- watcher.go `getAllResourceARNs`: merges all regions and sorts.  The Go
function always returns a nil error — a failed region is skipped, and when
every region fails the result is simply the empty slice. -/
def getAllResourceARNs (getRegion : GoStr → Except String (List GoStr))
    (patterns regions : List GoStr) : Except String (List GoStr) :=
  Except.ok (currentSet getRegion patterns regions)

/-- The notification payload of one cycle (notifier.ResourceChange without the
account id and timestamp, which carry no reconciliation content). -/
structure ResourceChange where
  added : List GoStr
  removed : List GoStr
deriving DecidableEq

/-- The externally visible effects of one successful watcher.go
`checkResources` cycle: the state-store contents after the cycle and the list
of notifier invocations made during it. -/
structure CycleOutcome where
  newStore : StoreState
  notifications : List ResourceChange
deriving DecidableEq

/-- watcher.go `checkResources` for one account.  `notifyResult` is what
`notifier.SendNotification` returns when invoked; the Go code only logs an
error from it, so it influences neither control flow nor state — hence the
binder is intentionally unused.  Redis I/O
itself is modelled as error-free (a store error would abort the cycle, which
no claim here exercises). -/
def checkResources (getRegion : GoStr → Except String (List GoStr))
    (patterns regions : List GoStr) (_notifyResult : Except String Unit)
    (st : StoreState) : Except String CycleOutcome :=
  match getAllResourceARNs getRegion patterns regions with
  | Except.error e => Except.error e
  | Except.ok currentARNs =>
    if IsFirstRun st then
      Except.ok ⟨SetResourceARNs currentARNs, []⟩
    else
      let previousARNs := GetStoredARNs st
      let added := (compareResources previousARNs currentARNs).1
      let removed := (compareResources previousARNs currentARNs).2
      let notifications :=
        if 0 < added.length ∨ 0 < removed.length then
          [ResourceChange.mk added removed]
        else []
      Except.ok ⟨SetResourceARNs currentARNs, notifications⟩

/-- Claim C7: `diff(A,B).added = diff(B,A).removed` and `diff(A,A) = (∅, ∅)`
for all resource sets `A`, `B` (watcher.go `compareResources`). -/
theorem compare_resources_antisymm_and_idempotent (A B : List GoStr) :
    (compareResources A B).1 = (compareResources B A).2 ∧
    (compareResources A A).1 = [] ∧ (compareResources A A).2 = [] := by
  refine ⟨rfl, ?_, ?_⟩ <;>
    · simp only [compareResources, List.filter_eq_nil_iff]
      intro a ha
      simpa using ha

lemma mergeRegionARNs_all_fail (getRegion : GoStr → Except String (List GoStr))
    (patterns : List GoStr) :
    ∀ regions, (∀ r ∈ regions, ∃ e, getRegion r = Except.error e) →
      mergeRegionARNs getRegion patterns regions = [] := by
  intro regions
  induction regions with
  | nil => intro _; rfl
  | cons r rest ih =>
    intro h
    obtain ⟨e, he⟩ := h r (List.mem_cons_self r rest)
    simp only [mergeRegionARNs, he]
    exact ih (fun x hx => h x (List.mem_cons_of_mem r hx))

/-- Region names used by the concrete cycles below. -/
def regionA : GoStr := "us-east-1".toList

def regionB : GoStr := "eu-west-1".toList

/-- A per-region enumerator that always fails. -/
def failingEnum : GoStr → Except String (List GoStr) := fun _ =>
  Except.error "api outage"

/-- A resource recorded in the store by an earlier cycle. -/
def storedArn : GoStr := "arn:aws:ec2:us-east-1:123:instance/i-old".toList

/-- A resource of the surviving partition. -/
def survivorArn : GoStr := "arn:aws:ec2:eu-west-1:123:instance/i-new".toList

/-- Enumerator mock for two partitions: `regionA` errors, any other region
returns one resource. -/
def partialEnum : GoStr → Except String (List GoStr) := fun r =>
  if r == regionA then Except.error "api outage" else Except.ok [survivorArn]

/-- A per-region enumerator that finds nothing. -/
def emptyEnum : GoStr → Except String (List GoStr) := fun _ => Except.ok []

/-- Claim C1 is false of the code: in a cycle where enumeration fails for
every configured partition, `checkResources` does not abort — it succeeds,
reports the previously stored resource as removed, and overwrites the State
Store (persisting the empty current set deletes the key) instead of leaving
the previous state authoritative. -/
theorem total_failure_counterexample :
    checkResources failingEnum [] [regionA] (Except.ok ()) (some [storedArn]) =
      Except.ok ⟨none, [ResourceChange.mk [] [storedArn]]⟩ ∧
    (none : StoreState) ≠ some [storedArn] := by
  exact ⟨rfl, by simp⟩

/-- Claim C1, amended: a cycle in which enumeration fails for every configured
partition does not abort.  It completes with the empty current set: the store
is overwritten with the empty set (deleting the key), and on a non-first run
with non-empty previous state every previously stored resource is reported as
removed.  (Partition discovery runs once at startup, before any cycle, so its
failure prevents cycles from existing at all.) -/
theorem total_failure_amended (getRegion : GoStr → Except String (List GoStr))
    (patterns regions : List GoStr) (n : Except String Unit) (st : StoreState)
    (hfail : ∀ r ∈ regions, ∃ e, getRegion r = Except.error e) :
    checkResources getRegion patterns regions n st =
      Except.ok ⟨none,
        if GetStoredARNs st = [] then []
        else [ResourceChange.mk [] (GetStoredARNs st)]⟩ := by
  have hm := mergeRegionARNs_all_fail getRegion patterns regions hfail
  simp only [checkResources, getAllResourceARNs, currentSet, hm]
  cases st with
  | none => simp [IsFirstRun, SetResourceARNs, sortStrings, GetStoredARNs]
  | some prev =>
    simp only [IsFirstRun, Option.isNone_some, Bool.false_eq_true, if_false,
      GetStoredARNs, Option.getD_some]
    cases prev with
    | nil => simp [compareResources, sortStrings, SetResourceARNs]
    | cons a rest =>
      simp [compareResources, sortStrings, SetResourceARNs]

theorem total_failure_amended_witness :
    (∀ r ∈ [regionA], ∃ e, failingEnum r = Except.error e) ∧
    checkResources failingEnum [] [regionA] (Except.ok ()) (some [storedArn]) =
      Except.ok ⟨none, [ResourceChange.mk [] [storedArn]]⟩ := by
  refine ⟨fun r _ => ⟨"api outage", rfl⟩, ?_⟩
  have h := total_failure_amended failingEnum [] [regionA] (Except.ok ())
    (some [storedArn]) (fun r _ => ⟨"api outage", rfl⟩)
  simpa [GetStoredARNs] using h

/-- The last conjunct of claim C2 is false of the code: with partitions
`[regionA, regionB]` where `regionA`'s enumeration fails, the failed
partition's previously stored resource IS reported as removed in the
notification — the full previous set is compared against the merged current
set, which no longer contains it. -/
theorem partial_failure_counterexample :
    checkResources partialEnum [] [regionA, regionB] (Except.ok ())
        (some [storedArn]) =
      Except.ok ⟨some [survivorArn],
        [ResourceChange.mk [survivorArn] [storedArn]]⟩ ∧
    storedArn ∈ (ResourceChange.mk [survivorArn] [storedArn]).removed := by
  exact ⟨rfl, by simp⟩

/-- Claim C2, amended: with two configured partitions of which the first fails
and the second succeeds, the cycle completes without aborting and the merged
current set is exactly the surviving partition's filtered identifiers
(sorted); however the removed list of any notification is the stale part of
the full previous set — the failed partition's resources are compared like any
others and hence reported as removed. -/
theorem partial_failure_amended (getRegion : GoStr → Except String (List GoStr))
    (patterns : List GoStr) (r1 r2 : GoStr) (l2 prev : List GoStr)
    (e1 : String) (n : Except String Unit)
    (h1 : getRegion r1 = Except.error e1) (h2 : getRegion r2 = Except.ok l2) :
    ∃ out, checkResources getRegion patterns [r1, r2] n (some prev) =
        Except.ok out ∧
      out.newStore = SetResourceARNs (sortStrings (filterARNs patterns l2)) ∧
      ∀ ch ∈ out.notifications,
        ch.added = (sortStrings (filterARNs patterns l2)).filter
          (fun a => !(prev.contains a)) ∧
        ch.removed = prev.filter
          (fun a => !((sortStrings (filterARNs patterns l2)).contains a)) := by
  have hm : mergeRegionARNs getRegion patterns [r1, r2] = filterARNs patterns l2 := by
    simp [mergeRegionARNs, h1, h2]
  simp only [checkResources, getAllResourceARNs, currentSet, hm, IsFirstRun,
    Option.isNone_some, Bool.false_eq_true, if_false, GetStoredARNs,
    Option.getD_some]
  refine ⟨_, rfl, rfl, ?_⟩
  intro ch hch
  simp only [compareResources] at hch
  split at hch
  · rw [List.mem_singleton] at hch
    subst hch
    exact ⟨rfl, rfl⟩
  · cases hch

theorem partial_failure_amended_witness :
    partialEnum regionA = Except.error "api outage" ∧
    partialEnum regionB = Except.ok [survivorArn] ∧
    ∃ out, checkResources partialEnum [] [regionA, regionB] (Except.ok ())
        (some [storedArn]) = Except.ok out ∧
      out.newStore = SetResourceARNs (sortStrings (filterARNs [] [survivorArn])) ∧
      ∀ ch ∈ out.notifications,
        ch.added = (sortStrings (filterARNs [] [survivorArn])).filter
          (fun a => !(([storedArn] : List GoStr).contains a)) ∧
        ch.removed = ([storedArn] : List GoStr).filter
          (fun a => !((sortStrings (filterARNs [] [survivorArn])).contains a)) :=
  ⟨rfl, rfl, partial_failure_amended partialEnum [] regionA regionB [survivorArn]
    [storedArn] "api outage" (Except.ok ()) rfl rfl⟩

/-- Claim C8: for an account with no stored state (`IsFirstRun`), one cycle
persists the current (merged, filtered, sorted) resource set and invokes the
notifier zero times. -/
theorem first_run_no_notify (getRegion : GoStr → Except String (List GoStr))
    (patterns regions : List GoStr) (notifyResult : Except String Unit) :
    checkResources getRegion patterns regions notifyResult none =
      Except.ok ⟨SetResourceARNs (currentSet getRegion patterns regions), []⟩ := rfl

/-- Claim C9: on every non-first-run cycle the current (filtered) set is
persisted whatever the notifier does — two runs differing only in the
notifier's result (for instance success versus failure) have identical
outcomes, the store always receives the current set, the notifier is invoked
at most once, and it is invoked exactly when the change set is non-empty. -/
theorem persist_decoupled_from_notify (getRegion : GoStr → Except String (List GoStr))
    (patterns regions prev : List GoStr) (n1 n2 : Except String Unit) :
    ∃ out, checkResources getRegion patterns regions n1 (some prev) = Except.ok out ∧
      checkResources getRegion patterns regions n2 (some prev) = Except.ok out ∧
      out.newStore = SetResourceARNs (currentSet getRegion patterns regions) ∧
      out.notifications.length ≤ 1 ∧
      (out.notifications ≠ [] ↔
        ((compareResources prev (currentSet getRegion patterns regions)).1 ≠ [] ∨
         (compareResources prev (currentSet getRegion patterns regions)).2 ≠ [])) := by
  refine ⟨_, rfl, rfl, rfl, ?_, ?_⟩ <;>
    simp only [checkResources, getAllResourceARNs, IsFirstRun, Option.isNone_some,
      Bool.false_eq_true, if_false, GetStoredARNs, Option.getD_some]
  · split <;> simp
  · split
    case isTrue h =>
      simpa using Or.imp List.ne_nil_of_length_pos List.ne_nil_of_length_pos h
    case isFalse h =>
      push_neg at h
      simp only [ne_eq, not_true_eq_false, false_iff]
      push_neg
      exact ⟨by simpa using List.length_eq_zero.mp (Nat.le_zero.mp h.1),
        by simpa using List.length_eq_zero.mp (Nat.le_zero.mp h.2)⟩

/-- A 6-field identifier and a 6-field pattern whose resource field is empty. -/
def emptyResId : GoStr := "arn:aws:s3:us-east-1:123:bucket".toList

def emptyResPat : GoStr := "arn:aws:s3:us-east-1:123:".toList

/-- Claim C3 is false of the code at this input: both sides have exactly 6
colon-delimited fields, the pattern's resource field is empty, so the claimed
rule ("otherwise the resource fields must be exactly equal") demands no match
for the identifier's resource field `bucket` — but `matchesARNPattern`
matches, because the code treats an empty pattern field as a wildcard in the
resource position too. -/
theorem filter_submatch_counterexample :
    matchesARNPattern emptyResId emptyResPat = true ∧
    specClaimMatches emptyResId emptyResPat = false := by
  exact ⟨by decide, by decide⟩

/-- Claim C3, amended: `matchesARNPattern` agrees everywhere with the claimed
field-walk description — fewer than 6 colon-delimited fields on either side
yields false, fields 0..4 require equality unless the pattern field is empty
or `*`, and the resource field obeys the specified sub-match — amended only in
that an empty pattern resource field (like a bare `*`) matches any resource
field. -/
theorem filter_matches_amended_spec (arn pattern : GoStr) :
    matchesARNPattern arn pattern = specAmendedMatches arn pattern := by
  unfold matchesARNPattern matchesARNPatternParts specAmendedMatches
  simp only [matchesResourcePattern_eq_spec]

/-- Claim C10: when both the identifier and the pattern split into more than
six colon-delimited fields, `matchesARNPattern` returns the same result as on
the colon-joins of the first six fields of each argument — fields at index 6
or beyond never affect the outcome. -/
theorem matches_depends_on_first_six (arn pattern : GoStr)
    (ha : 6 < (goSplit ':' arn).length) (hp : 6 < (goSplit ':' pattern).length) :
    matchesARNPattern arn pattern =
      matchesARNPattern (goJoin ':' ((goSplit ':' arn).take 6))
        (goJoin ':' ((goSplit ':' pattern).take 6)) := by
  have hlena : ((goSplit ':' arn).take 6).length = 6 := by
    rw [List.length_take]; omega
  have hlenp : ((goSplit ':' pattern).take 6).length = 6 := by
    rw [List.length_take]; omega
  have hnea : (goSplit ':' arn).take 6 ≠ [] := by
    intro h; rw [h] at hlena; simp at hlena
  have hnep : (goSplit ':' pattern).take 6 ≠ [] := by
    intro h; rw [h] at hlenp; simp at hlenp
  unfold matchesARNPattern
  rw [goSplit_goJoin ':' _ hnea
      (fun f hf => mem_goSplit_not_mem ':' arn f (List.take_subset 6 _ hf)),
    goSplit_goJoin ':' _ hnep
      (fun f hf => mem_goSplit_not_mem ':' pattern f (List.take_subset 6 _ hf)),
    matchesARNPatternParts_take _ _ (le_of_lt ha) (le_of_lt hp)]

/-- A 7-field identifier and a 7-field pattern. -/
def sevenFieldId : GoStr := "arn:aws:ec2:us-east-1:123:volume:junk-a".toList

def sevenFieldPat : GoStr := "arn:aws:ec2:*:*:volume:junk-b".toList

theorem matches_depends_on_first_six_witness :
    6 < (goSplit ':' sevenFieldId).length ∧
    6 < (goSplit ':' sevenFieldPat).length ∧
    matchesARNPattern sevenFieldId sevenFieldPat =
      matchesARNPattern (goJoin ':' ((goSplit ':' sevenFieldId).take 6))
        (goJoin ':' ((goSplit ':' sevenFieldPat).take 6)) :=
  ⟨by decide, by decide,
    matches_depends_on_first_six sevenFieldId sevenFieldPat (by decide) (by decide)⟩

/-- Two resources in ascending lexicographic order. -/
def arnAlpha : GoStr := "arn:aws:s3:::alpha".toList

def arnBeta : GoStr := "arn:aws:s3:::beta".toList

/-- Claim C4 is false of the code: starting from the store exactly as an
earlier cycle leaves it after persisting the sorted set `[arnAlpha, arnBeta]`,
a notifying cycle that finds nothing reports `removed = [arnBeta, arnAlpha]`,
which is not in (ascending) lexicographic order — the Redis list hands the
persisted set back reversed. -/
theorem notify_order_counterexample :
    checkResources emptyEnum [] [regionA] (Except.ok ())
        (SetResourceARNs [arnAlpha, arnBeta]) =
      Except.ok ⟨none, [ResourceChange.mk [] [arnBeta, arnAlpha]]⟩ ∧
    ¬ List.Sorted strLe [arnBeta, arnAlpha] := by
  refine ⟨rfl, fun h => ?_⟩
  have h1 : strLe arnBeta arnAlpha :=
    List.rel_of_sorted_cons h arnAlpha (List.mem_cons_self arnAlpha [])
  exact absurd h1 (by decide)

/-- Claim C4, amended: in every cycle that notifies, the `added` list is in
ascending lexicographic order (the current set is sorted before comparison),
and the `removed` list — whenever the previous state was produced by
persisting a sorted set, as every cycle does — is deterministic but in
*descending* lexicographic order, because the store returns the persisted list
reversed. -/
theorem notify_order_amended (getRegion : GoStr → Except String (List GoStr))
    (patterns regions prevPersisted : List GoStr) (n : Except String Unit)
    (out : CycleOutcome) (ch : ResourceChange)
    (hsorted : List.Sorted strLe prevPersisted)
    (hrun : checkResources getRegion patterns regions n
        (SetResourceARNs prevPersisted) = Except.ok out)
    (hch : out.notifications = [ch]) :
    List.Sorted strLe ch.added ∧ List.Sorted (flip strLe) ch.removed := by
  by_cases hp : prevPersisted = []
  · subst hp
    have : out = ⟨SetResourceARNs (currentSet getRegion patterns regions), []⟩ := by
      have h0 : SetResourceARNs [] = none := rfl
      rw [h0] at hrun
      exact (Except.ok.inj hrun).symm
    rw [this] at hch
    cases hch
  · have hset : SetResourceARNs prevPersisted = some prevPersisted.reverse := by
      simp [SetResourceARNs, hp]
    rw [hset] at hrun
    simp only [checkResources, getAllResourceARNs, IsFirstRun, Option.isNone_some,
      Bool.false_eq_true, if_false, GetStoredARNs, Option.getD_some] at hrun
    have hout := (Except.ok.inj hrun).symm
    rw [hout] at hch
    simp only [compareResources] at hch
    split at hch
    · rw [List.cons.injEq] at hch
      obtain ⟨hch1, -⟩ := hch
      subst hch1
      exact ⟨List.Pairwise.filter _ (List.sorted_insertionSort strLe _),
        List.Pairwise.filter _ (List.pairwise_reverse.mpr hsorted)⟩
    · cases hch

theorem notify_order_amended_witness :
    List.Sorted strLe [arnAlpha, arnBeta] ∧
    (List.Sorted strLe ([] : List GoStr) ∧
      List.Sorted (flip strLe) [arnBeta, arnAlpha]) := by
  have hs : List.Sorted strLe [arnAlpha, arnBeta] := by
    rw [List.sorted_cons]
    exact ⟨fun b hb => by rw [List.mem_singleton.mp hb]; decide,
      List.sorted_singleton arnBeta⟩
  exact ⟨hs, notify_order_amended emptyEnum [] [regionA] [arnAlpha, arnBeta]
    (Except.ok ()) ⟨none, [ResourceChange.mk [] [arnBeta, arnAlpha]]⟩
    (ResourceChange.mk [] [arnBeta, arnAlpha]) hs rfl rfl⟩
